import Mathlib

/-!
Verification development for the traversal and chunking logic of
`md_tree.py` (folder-reorganiser).

The Python program is shallowly embedded here:

* Python strings are modelled as `List Char` (sequences of code points,
  which is exactly what a Python `str` is).
* `chunk_text` is modelled with an explicit fuel counter for its `while`
  loop; fuel `s.length` is proved sufficient whenever `max_chars ≥ 1`, and
  the non-termination of the loop for `max_chars = 0` is captured by the
  loop returning `none` for every fuel value.
* The float comparison `nl > start + max_chars * 0.6` of the source is
  embedded as the exact integer test `5 * nl > 5 * start + 3 * max_chars`.
  This is faithful: the IEEE-754 double nearest to `0.6` is
  `3/5 - 1/(5·2^53)`, and for all magnitudes that can occur here
  (`start`, `max_chars` far below `2^50`) the rounded product
  `max_chars * 0.6` and the rounded sum `start + max_chars * 0.6` stay
  strictly between the integers surrounding the exact value
  `start + 3·max_chars/5` (or hit that exact value when `5 ∣ max_chars`,
  in which case the product is exactly representable), so comparing the
  integer `nl` against the float is equivalent to the exact rational
  comparison, which for integers is `5·nl > 5·start + 3·max_chars`.
* `human_size` repeatedly divides by `1024.0`; since the input is an
  integer (far below `2^53` for any real file) and division by a power of
  two is exact in binary floating point, the running float is always
  exactly `num / 1024^k`. The model keeps the pair `(num, D)` with
  `D = 1024^k` and formats with correct rounding, half to even, which is
  what CPython's float formatting does.
* The filesystem is modelled by the inductive `FSNode`; `os.scandir`,
  `os.path.islink`, `os.path.isdir`, `os.stat` identities and
  `os.path.getsize` become functions on it.  A directory whose
  `islink`/`is_dir` probe raises `PermissionError` is the `denied`
  constructor.  Symbolic-link cycles are represented by finite trees in
  which a revisited directory carries the same `(st_dev, st_ino)`
  identity as an ancestor.
* Python's `list.sort` (stable, ascending by key) is modelled by the
  stable insertion sort `stableSort`.
-/

/-! ## Python strings as lists of characters -/

abbrev Str := List Char

/-- Shorthand to write a modelled Python string with Lean string syntax. -/
def str (s : String) : Str := s.data

/-- Model of Python `str.lower` (the names involved are ASCII; for ASCII
`Char.toLower` agrees with Python's `str.lower`). -/
def lowerStr (s : Str) : Str := s.map Char.toLower

/-- Lexicographic comparison of code-point sequences: Python's `<=` on
`str`. -/
def lexLe : Str → Str → Bool
  | [], _ => true
  | _ :: _, [] => false
  | a :: as, b :: bs => if a = b then lexLe as bs else decide (a < b)

/-! ## `chunk_text` (md_tree.py lines 179–193) -/

/-- Python `text.rfind("\n", start, stop)`: the largest index `i` with
`start ≤ i < stop` and `text[i] = '\n'`, or `-1` when there is none.
The recursion is on `stop`, scanning downward. -/
def pyRfindNl (s : Str) (start : Nat) : Nat → Int
  | 0 => -1
  | stop + 1 =>
    if start ≤ stop ∧ s.get? stop = some '\n' then (stop : Int)
    else pyRfindNl s start stop

/-- Python `text[a:b]` for `0 ≤ a ≤ b ≤ len(text)`. -/
def pySlice (s : Str) (a b : Nat) : Str := (s.take b).drop a

/-- One boundary computation of the `chunk_text` loop body:
`end = min(start + max_chars, n)`, then, if `end < n`, back off to
`nl + 1` when `nl > start + max_chars * 0.6` where
`nl = text.rfind("\n", start, end)`.  The float comparison is embedded as
the exact test `5 * nl > 5 * start + 3 * max_chars` (see the header
comment). -/
def chunkEnd (s : Str) (maxChars start : Nat) : Nat :=
  let n := s.length
  let e := min (start + maxChars) n
  if e < n then
    let nl := pyRfindNl s start e
    if 5 * nl > 5 * (start : Int) + 3 * (maxChars : Int) then nl.toNat + 1
    else e
  else e

/-- The `while start < n` loop of `chunk_text`, with fuel.  `none` means
the fuel ran out before the loop finished; for `maxChars ≥ 1` fuel
`s.length` is enough (proved below), while for `maxChars = 0` and a
non-empty text every fuel value yields `none` because the loop never
advances. -/
def chunkLoop (s : Str) (maxChars : Nat) : Nat → Nat → Option (List Str)
  | 0, start => if start < s.length then none else some []
  | fuel + 1, start =>
    if start < s.length then
      (chunkLoop s maxChars fuel (chunkEnd s maxChars start)).map
        (fun cs => pySlice s start (chunkEnd s maxChars start) :: cs)
    else some []

/-- Model of `chunk_text(text, max_chars)`. -/
def chunk_text (s : Str) (maxChars : Nat) : List Str :=
  if s.length ≤ maxChars then [s]
  else (chunkLoop s maxChars s.length 0).getD []

/-! ### Properties of `pyRfindNl` -/

theorem pyRfindNl_lt (s : Str) (start stop : Nat) :
    pyRfindNl s start stop < (stop : Int) := by
  induction stop with
  | zero => simp [pyRfindNl]
  | succ k ih =>
    simp only [pyRfindNl]
    split
    · push_cast; omega
    · have : (k : Int) < (k + 1 : Nat) := by push_cast; omega
      exact lt_trans ih this

theorem pyRfindNl_found (s : Str) (start stop : Nat)
    (h : pyRfindNl s start stop ≠ -1) :
    0 ≤ pyRfindNl s start stop ∧
    start ≤ (pyRfindNl s start stop).toNat ∧
    s.get? (pyRfindNl s start stop).toNat = some '\n' := by
  induction stop with
  | zero => simp [pyRfindNl] at h
  | succ k ih =>
    by_cases hc : start ≤ k ∧ s.get? k = some '\n'
    · simp only [pyRfindNl, if_pos hc]
      exact ⟨by positivity, by simpa using hc.1, by simpa using hc.2⟩
    · simp only [pyRfindNl, if_neg hc] at h ⊢
      exact ih h

theorem pyRfindNl_max (s : Str) (start stop : Nat) :
    ∀ j : Nat, start ≤ j → j < stop → pyRfindNl s start stop < (j : Int) →
      s.get? j ≠ some '\n' := by
  induction stop with
  | zero => omega
  | succ k ih =>
    intro j hsj hjk hlt
    simp only [pyRfindNl] at hlt
    by_cases hc : start ≤ k ∧ s.get? k = some '\n'
    · simp only [if_pos hc] at hlt
      omega
    · simp only [if_neg hc] at hlt
      rcases Nat.lt_succ_iff_lt_or_eq.mp hjk with hj | hj
      · exact ih j hsj hj hlt
      · subst hj
        intro hget
        exact hc ⟨hsj, hget⟩

/-! ### Boundary behaviour of one loop iteration -/

theorem chunkEnd_bounds (s : Str) (m start : Nat) (hm : 1 ≤ m)
    (h : start < s.length) :
    start < chunkEnd s m start ∧ chunkEnd s m start ≤ s.length ∧
    chunkEnd s m start ≤ start + m := by
  unfold chunkEnd
  simp only
  split
  · rename_i he
    split
    · rename_i hc
      have hnl := pyRfindNl_lt s start (min (start + m) s.length)
      have h0 : (0 : Int) ≤ pyRfindNl s start (min (start + m) s.length) := by
        omega
      have hlow : (start : Int) < pyRfindNl s start (min (start + m) s.length) := by
        omega
      omega
    · omega
  · omega

theorem chunkEnd_zero (s : Str) (start : Nat) (h : start < s.length) :
    chunkEnd s 0 start = start := by
  have hnl := pyRfindNl_lt s start start
  unfold chunkEnd
  simp only [Nat.add_zero, min_eq_left (le_of_lt h)]
  rw [if_pos h, if_neg (by push_cast; omega)]

/-! ### The loop -/

theorem chunkLoop_spec (s : Str) (m : Nat) (hm : 1 ≤ m) :
    ∀ fuel start, s.length - start ≤ fuel →
      ∃ cs, chunkLoop s m fuel start = some cs ∧
        cs.flatten = s.drop start ∧ ∀ c ∈ cs, c.length ≤ m := by
  intro fuel
  induction fuel with
  | zero =>
    intro start hf
    refine ⟨[], ?_, ?_, by simp⟩
    · simp [chunkLoop]
      omega
    · simp [List.drop_eq_nil_of_le (by omega : s.length ≤ start)]
  | succ k ih =>
    intro start hf
    by_cases hs : start < s.length
    · obtain ⟨hprog, hle, hbud⟩ := chunkEnd_bounds s m start hm hs
      obtain ⟨cs, hcs, hflat, hlen⟩ := ih (chunkEnd s m start) (by omega)
      refine ⟨pySlice s start (chunkEnd s m start) :: cs, ?_, ?_, ?_⟩
      · simp [chunkLoop, hs, hcs]
      · simp only [List.flatten_cons, hflat, pySlice]
        have h1 : s.drop start =
            ((s.take (chunkEnd s m start)).drop start) ++
              s.drop (chunkEnd s m start) := by
          conv_lhs => rw [← List.take_append_drop (chunkEnd s m start) s]
          rw [List.drop_append_eq_append_drop]
          have : start - (s.take (chunkEnd s m start)).length = 0 := by
            simp [List.length_take]
            omega
          rw [this, List.drop_zero]
        exact h1.symm
      · intro c hc
        rcases List.mem_cons.mp hc with hc | hc
        · subst hc
          simp only [pySlice, List.length_drop, List.length_take]
          omega
        · exact hlen c hc
    · exact ⟨[], by simp [chunkLoop, hs],
        by simp [List.drop_eq_nil_of_le (by omega : s.length ≤ start)],
        by simp⟩

theorem chunkLoop_zero_stuck (s : Str) (h : 0 < s.length) :
    ∀ fuel, chunkLoop s 0 fuel 0 = none := by
  intro fuel
  induction fuel with
  | zero => simp [chunkLoop, h]
  | succ k ih => simp [chunkLoop, h, chunkEnd_zero s 0 h, ih]

/-! ### Claim C1 -/

/-- C1: for every text and every chunk budget `B ≥ 1` (the loop does not
terminate for `B = 0`, see C10), `chunk_text` returns an ordered list of
chunks, each of length at most `B`, whose in-order concatenation is the
original text; when the text has length at most `B`, the result is
exactly one chunk identical to the input. -/
theorem chunk_text_spec (s : Str) (m : Nat) (hm : 1 ≤ m) :
    (chunk_text s m).flatten = s ∧
    (∀ c ∈ chunk_text s m, c.length ≤ m) ∧
    (s.length ≤ m → chunk_text s m = [s]) := by
  by_cases hs : s.length ≤ m
  · refine ⟨by simp [chunk_text, hs], ?_, fun _ => by simp [chunk_text, hs]⟩
    simp [chunk_text, hs]
  · obtain ⟨cs, hcs, hflat, hlen⟩ := chunkLoop_spec s m hm s.length 0 (by omega)
    have hct : chunk_text s m = cs := by
      simp [chunk_text, hs, hcs]
    refine ⟨?_, ?_, fun h => absurd h hs⟩
    · rw [hct, hflat]; simp
    · rw [hct]; exact hlen

theorem chunk_text_spec_witness :
    (chunk_text (str "hello") 5).flatten = str "hello" ∧
    (∀ c ∈ chunk_text (str "hello") 5, c.length ≤ 5) ∧
    ((str "hello").length ≤ 5 → chunk_text (str "hello") 5 = [str "hello"]) :=
  chunk_text_spec (str "hello") 5 (by decide)

/-! ### Claim C2 -/

/-- C2, counterexample to the claim as stated: on `"abc\nefgh"` with
budget 5 the tentative boundary 5 falls inside a line and the nearest
preceding line break sits at index 3, exactly 60% of the budget from the
chunk start (`5·(3-0) ≥ 3·5`), i.e. "no earlier than 60%"; yet the chunk
is split mid-line at the budget (`"abc\ne"`), not at the break
(`"abc\n"`), because the source compares strictly
(`nl > start + max_chars * 0.6`, and `5 * 0.6 == 3.0` exactly). -/
theorem chunk_backoff_cex :
    chunk_text (str "abc\nefgh") 5 = [str "abc\ne", str "fgh"] ∧
    min (0 + 5) (str "abc\nefgh").length < (str "abc\nefgh").length ∧
    pyRfindNl (str "abc\nefgh") 0 (min (0 + 5) (str "abc\nefgh").length) = 3 ∧
    5 * ((3 : Int) - 0) ≥ 3 * 5 ∧
    (chunk_text (str "abc\nefgh") 5).head? ≠ some (str "abc\n") := by
  refine ⟨by decide, by decide, by decide, by decide, by decide⟩

/-- C2, amended: whenever the tentative end `start + B` falls strictly
inside the text, the boundary backs off to the nearest preceding line
break provided that break lies *strictly later* than 60% of the budget
from the chunk start (`5·nl > 5·start + 3·B`; a break at exactly 60% does
not qualify), the newline being included in the chunk; otherwise the
chunk is split mid-line exactly at the budget. -/
theorem chunkEnd_boundary (s : Str) (m start : Nat) (hm : 1 ≤ m)
    (hin : start + m < s.length) :
    (5 * pyRfindNl s start (start + m) >
        5 * (start : Int) + 3 * (m : Int) →
      chunkEnd s m start = (pyRfindNl s start (start + m)).toNat + 1 ∧
      s.get? (pyRfindNl s start (start + m)).toNat = some '\n' ∧
      start ≤ (pyRfindNl s start (start + m)).toNat ∧
      (∀ j : Nat, pyRfindNl s start (start + m) < (j : Int) →
        j < start + m → s.get? j ≠ some '\n')) ∧
    (¬ (5 * pyRfindNl s start (start + m) >
        5 * (start : Int) + 3 * (m : Int)) →
      chunkEnd s m start = start + m) := by
  have hmineq : min (start + m) s.length = start + m := by omega
  constructor
  · intro hc
    have hne : pyRfindNl s start (start + m) ≠ -1 := by
      intro h0
      rw [h0] at hc
      omega
    obtain ⟨h0, hst, hget⟩ := pyRfindNl_found s start (start + m) hne
    refine ⟨?_, hget, hst, ?_⟩
    · unfold chunkEnd
      simp only [hmineq]
      rw [if_pos (by omega), if_pos hc]
    · intro j hj1 hj2
      exact pyRfindNl_max s start (start + m) j (by omega) hj2 hj1
  · intro hc
    unfold chunkEnd
    simp only [hmineq]
    rw [if_pos (by omega), if_neg hc]

theorem chunkEnd_boundary_witness :
    chunkEnd (str "ab\ncd") 3 0 = 3 ∧
    (str "ab\ncd").get? 2 = some '\n' ∧
    chunkEnd (str "abc\nefgh") 5 0 = 5 := by
  refine ⟨?_, by decide, ?_⟩
  · exact ((chunkEnd_boundary (str "ab\ncd") 3 0 (by decide)
      (by decide)).1 (by decide)).1
  · exact (chunkEnd_boundary (str "abc\nefgh") 5 0 (by decide)
      (by decide)).2 (by decide)

/-! ### Claim C10 -/

/-- C10: with `max_chars ≥ 1` every loop iteration strictly advances the
chunk start, so fuel `s.length` suffices and `chunk_text` terminates; the
precondition is necessary: for `max_chars = 0` (the only `Nat` rendering
of `max_chars ≤ 0`) and a non-empty text, an iteration leaves the start
unchanged and the loop never finishes, whatever the fuel. -/
theorem chunk_text_termination (s : Str) (m start fuel : Nat) :
    (1 ≤ m → start < s.length → start < chunkEnd s m start) ∧
    (1 ≤ m → s.length ≤ fuel → (chunkLoop s m fuel 0).isSome = true) ∧
    (m = 0 → start < s.length → chunkEnd s m start = start) ∧
    (m = 0 → 0 < s.length → chunkLoop s m fuel 0 = none) := by
  refine ⟨fun hm hs => (chunkEnd_bounds s m start hm hs).1, ?_, ?_, ?_⟩
  · intro hm hf
    obtain ⟨cs, hcs, -, -⟩ := chunkLoop_spec s m hm fuel 0 (by omega)
    simp [hcs]
  · intro hm hs
    subst hm
    exact chunkEnd_zero s start hs
  · intro hm hs
    subst hm
    exact chunkLoop_zero_stuck s hs fuel

theorem chunk_text_termination_witness :
    (0 < chunkEnd (str "ab") 1 0) ∧
    ((chunkLoop (str "ab") 1 2 0).isSome = true) ∧
    chunkEnd (str "ab") 0 0 = 0 ∧
    chunkLoop (str "ab") 0 7 0 = none :=
  ⟨(chunk_text_termination (str "ab") 1 0 2).1 (by decide) (by decide),
   (chunk_text_termination (str "ab") 1 0 2).2.1 (by decide) (by decide),
   (chunk_text_termination (str "ab") 0 0 7).2.2.1 rfl (by decide),
   (chunk_text_termination (str "ab") 0 0 7).2.2.2 rfl (by decide)⟩

/-! ## `human_size` (md_tree.py lines 23–28)

The Python loop keeps a float that starts as the integer `num` and is
divided by `1024.0` once per unit; each such division is exact in IEEE
doubles (for `num < 2^53`), so the float is always exactly `num / D`
with `D = 1024^k`.  The model carries the pair `(num, D)`.  CPython's
`format(x, '.1f')` rounds the exact value of the double to one decimal
with ties to even; `rhe` below implements that rounding. -/

/-- Round `a / b` to the nearest integer, ties to even (the rounding used
by CPython float formatting). -/
def rhe (a b : Nat) : Nat :=
  let q := a / b
  let r := a % b
  if 2 * r < b then q
  else if b < 2 * r then q + 1
  else if q % 2 = 0 then q else q + 1

/-- Python `f"{x:.1f}{unit}"` for the exact value `x = num / D`. -/
def fmt1 (num D : Nat) (u : String) : String :=
  let t := rhe (10 * num) D
  s!"{t / 10}.{t % 10}{u}"

/-- The `for unit in [...]` loop of `human_size`; the running float value
is `num / D`, and `num < 1024.0` of the source is the exact test
`num < 1024 * D`. -/
def human_size_go (num : Nat) (D : Nat) : List String → String
  | [] => fmt1 num D "PB"
  | u :: rest =>
    if num < 1024 * D then
      (if u = "B" then s!"{rhe num D}{u}" else fmt1 num D u)
    else human_size_go num (D * 1024) rest

/-- Model of `human_size(num)` for a byte count `num`. -/
def human_size (num : Nat) : String :=
  human_size_go num 1 ["B", "KB", "MB", "GB", "TB"]

/-- The unit ladder of `human_size`. -/
def hsUnits : List String := ["B", "KB", "MB", "GB", "TB", "PB"]

theorem rhe_one (a : Nat) : rhe a 1 = a := by
  simp [rhe, Nat.mod_one, Nat.div_one]

/-! ### Claim C6 -/

/-- C6: `human_size` picks its unit from B/KB/MB/GB/TB/PB by base-1024
magnitude, prints the byte case with no decimal places and every other
case with exactly one decimal digit, and in particular maps 0 to `"0B"`,
1536 to `"1.5KB"` and 1048576 to `"1.0MB"`. -/
theorem human_size_spec (num : Nat) :
    (num < 1024 → human_size num = Nat.repr num ++ "B") ∧
    (∀ k : Nat, 1 ≤ k → k ≤ 4 → 1024 ^ k ≤ num → num < 1024 ^ (k + 1) →
      human_size num = fmt1 num (1024 ^ k) (hsUnits.getD k "")) ∧
    (1024 ^ 5 ≤ num → human_size num = fmt1 num (1024 ^ 5) "PB") ∧
    (∀ n D : Nat, ∀ u : String, ∃ a b : Nat, b < 10 ∧
      fmt1 n D u = s!"{a}.{b}{u}") ∧
    human_size 0 = "0B" ∧ human_size 1536 = "1.5KB" ∧
    human_size 1048576 = "1.0MB" := by
  refine ⟨?_, ?_, ?_, ?_, by decide, by decide, by decide⟩
  · intro h
    simp only [human_size, human_size_go]
    rw [if_pos (show num < 1024 * 1 by omega), if_pos trivial, rhe_one]
    show ("" ++ Nat.repr num ++ "" ++ "B" ++ "" : String) = Nat.repr num ++ "B"
    rw [String.append_empty, String.append_empty, String.empty_append]
  · intro k hk1 hk4 hlo hhi
    interval_cases k
    · norm_num at hlo hhi
      simp only [human_size, human_size_go]
      rw [if_neg (show ¬ num < 1024 * 1 by omega),
        if_pos (show num < 1024 * (1 * 1024) by omega),
        if_neg (show ¬ ("KB" : String) = "B" by decide)]
      rfl
    · norm_num at hlo hhi
      simp only [human_size, human_size_go]
      rw [if_neg (show ¬ num < 1024 * 1 by omega),
        if_neg (show ¬ num < 1024 * (1 * 1024) by omega),
        if_pos (show num < 1024 * (1 * 1024 * 1024) by omega),
        if_neg (show ¬ ("MB" : String) = "B" by decide)]
      rfl
    · norm_num at hlo hhi
      simp only [human_size, human_size_go]
      rw [if_neg (show ¬ num < 1024 * 1 by omega),
        if_neg (show ¬ num < 1024 * (1 * 1024) by omega),
        if_neg (show ¬ num < 1024 * (1 * 1024 * 1024) by omega),
        if_pos (show num < 1024 * (1 * 1024 * 1024 * 1024) by omega),
        if_neg (show ¬ ("GB" : String) = "B" by decide)]
      rfl
    · norm_num at hlo hhi
      simp only [human_size, human_size_go]
      rw [if_neg (show ¬ num < 1024 * 1 by omega),
        if_neg (show ¬ num < 1024 * (1 * 1024) by omega),
        if_neg (show ¬ num < 1024 * (1 * 1024 * 1024) by omega),
        if_neg (show ¬ num < 1024 * (1 * 1024 * 1024 * 1024) by omega),
        if_pos (show num < 1024 * (1 * 1024 * 1024 * 1024 * 1024) by omega),
        if_neg (show ¬ ("TB" : String) = "B" by decide)]
      rfl
  · intro h
    norm_num at h
    simp only [human_size, human_size_go]
    rw [if_neg (show ¬ num < 1024 * 1 by omega),
      if_neg (show ¬ num < 1024 * (1 * 1024) by omega),
      if_neg (show ¬ num < 1024 * (1 * 1024 * 1024) by omega),
      if_neg (show ¬ num < 1024 * (1 * 1024 * 1024 * 1024) by omega),
      if_neg (show ¬ num < 1024 * (1 * 1024 * 1024 * 1024 * 1024) by omega)]
    rfl
  · intro n D u
    exact ⟨rhe (10 * n) D / 10, rhe (10 * n) D % 10,
      Nat.mod_lt _ (by norm_num), rfl⟩

theorem human_size_spec_witness :
    human_size 5 = "5B" ∧ human_size 2048 = "2.0KB" := by
  constructor
  · have h := (human_size_spec 5).1 (by norm_num)
    rw [h]
    decide
  · have h := (human_size_spec 2048).2.1 1 (by norm_num) (by norm_num)
      (by norm_num) (by norm_num)
    rw [h]
    decide

/-! ## A stable sort, modelling Python's `list.sort`

Python's `list.sort(key=...)` is a stable ascending sort.  For a total
preorder there is exactly one stable ascending reordering of a list, so
any stable sort is a faithful model; we use insertion sort, which is
structurally recursive and therefore evaluates inside the kernel. -/

/-- Insert `a` after every element `b` with `le b a` (so equal elements
keep their original relative order: stability). -/
def insertAfterLe {α} (le : α → α → Bool) (a : α) : List α → List α
  | [] => [a]
  | b :: bs => if le b a then b :: insertAfterLe le a bs else a :: b :: bs

def stableSortAux {α} (le : α → α → Bool) : List α → List α → List α
  | [], acc => acc
  | a :: as, acc => stableSortAux le as (insertAfterLe le a acc)

/-- Stable insertion sort: the model of Python `list.sort` with key
comparison `le`. -/
def stableSort {α} (le : α → α → Bool) (l : List α) : List α :=
  stableSortAux le l []

theorem insertAfterLe_sizeOf {α} [SizeOf α] (le : α → α → Bool) (a : α)
    (l : List α) : sizeOf (insertAfterLe le a l) = 1 + sizeOf a + sizeOf l := by
  induction l with
  | nil => simp [insertAfterLe]
  | cons b bs ih =>
    simp only [insertAfterLe]
    split
    · simp [ih]
      omega
    · simp

theorem stableSortAux_sizeOf {α} [SizeOf α] (le : α → α → Bool)
    (l acc : List α) :
    sizeOf (stableSortAux le l acc) + 1 = sizeOf l + sizeOf acc := by
  induction l generalizing acc with
  | nil => simp [stableSortAux]; omega
  | cons a as ih => simp [stableSortAux, ih, insertAfterLe_sizeOf]; omega

theorem stableSort_sizeOf {α} [SizeOf α] (le : α → α → Bool) (l : List α) :
    sizeOf (stableSort le l) = sizeOf l := by
  have h := stableSortAux_sizeOf le l []
  simp only [stableSort]
  simp at h
  omega

theorem mem_insertAfterLe {α} (le : α → α → Bool) (a x : α) (l : List α) :
    x ∈ insertAfterLe le a l ↔ x = a ∨ x ∈ l := by
  induction l with
  | nil => simp [insertAfterLe]
  | cons b bs ih =>
    simp only [insertAfterLe]
    split
    · simp [ih]
      tauto
    · simp

theorem mem_stableSortAux {α} (le : α → α → Bool) (l acc : List α) (x : α) :
    x ∈ stableSortAux le l acc ↔ x ∈ l ∨ x ∈ acc := by
  induction l generalizing acc with
  | nil => simp [stableSortAux]
  | cons a as ih =>
    simp only [stableSortAux, ih, mem_insertAfterLe, List.mem_cons]
    tauto

theorem mem_stableSort {α} (le : α → α → Bool) (l : List α) (x : α) :
    x ∈ stableSort le l ↔ x ∈ l := by
  simp [stableSort, mem_stableSortAux]

theorem pairwise_insertAfterLe {α} (le : α → α → Bool)
    (htrans : ∀ a b c, le a b = true → le b c = true → le a c = true)
    (htotal : ∀ a b, le a b = true ∨ le b a = true)
    (a : α) (l : List α) (hl : l.Pairwise (fun x y => le x y = true)) :
    (insertAfterLe le a l).Pairwise (fun x y => le x y = true) := by
  induction l with
  | nil => simp [insertAfterLe]
  | cons b bs ih =>
    rw [List.pairwise_cons] at hl
    obtain ⟨hb, hbs⟩ := hl
    simp only [insertAfterLe]
    split
    · rename_i hba
      refine List.Pairwise.cons ?_ (ih hbs)
      intro x hx
      rcases (mem_insertAfterLe le a x bs).mp hx with rfl | hx
      · exact hba
      · exact hb x hx
    · rename_i hba
      have hab : le a b = true := by
        rcases htotal a b with h | h
        · exact h
        · exact absurd h hba
      refine List.Pairwise.cons ?_ (List.Pairwise.cons hb hbs)
      intro x hx
      rcases List.mem_cons.mp hx with rfl | hx
      · exact hab
      · exact htrans a b x hab (hb x hx)

theorem pairwise_stableSortAux {α} (le : α → α → Bool)
    (htrans : ∀ a b c, le a b = true → le b c = true → le a c = true)
    (htotal : ∀ a b, le a b = true ∨ le b a = true) :
    ∀ l acc : List α, acc.Pairwise (fun x y => le x y = true) →
      (stableSortAux le l acc).Pairwise (fun x y => le x y = true) := by
  intro l
  induction l with
  | nil => exact fun acc h => h
  | cons a as ih =>
    intro acc hacc
    exact ih _ (pairwise_insertAfterLe le htrans htotal a acc hacc)

theorem pairwise_stableSort {α} (le : α → α → Bool)
    (htrans : ∀ a b c, le a b = true → le b c = true → le a c = true)
    (htotal : ∀ a b, le a b = true ∨ le b a = true) (l : List α) :
    (stableSort le l).Pairwise (fun x y => le x y = true) :=
  pairwise_stableSortAux le htrans htotal l [] List.Pairwise.nil

/-! ### The comparison used at md_tree.py line 41 -/

theorem lexLe_total (s1 s2 : Str) : lexLe s1 s2 = true ∨ lexLe s2 s1 = true := by
  induction s1 generalizing s2 with
  | nil => left; rfl
  | cons a as ih =>
    cases s2 with
    | nil => right; rfl
    | cons b bs =>
      by_cases hab : a = b
      · subst hab
        simpa [lexLe] using ih bs
      · rcases lt_or_gt_of_ne hab with h | h
        · left; simp [lexLe, hab, h]
        · right
          simp [lexLe, Ne.symm hab]
          exact h

theorem lexLe_trans (s1 s2 s3 : Str) (h1 : lexLe s1 s2 = true)
    (h2 : lexLe s2 s3 = true) : lexLe s1 s3 = true := by
  induction s1 generalizing s2 s3 with
  | nil => rfl
  | cons a as ih =>
    cases s2 with
    | nil => simp [lexLe] at h1
    | cons b bs =>
      cases s3 with
      | nil => simp [lexLe] at h2
      | cons c cs =>
        simp only [lexLe] at h1 h2 ⊢
        by_cases hab : a = b
        · subst hab
          by_cases hbc : a = c
          · subst hbc
            simp only [if_pos rfl] at h1 h2 ⊢
            exact ih bs cs (by simpa using h1) (by simpa using h2)
          · rw [if_neg hbc] at h2 ⊢
            rw [if_pos rfl] at h1
            exact h2
        · rw [if_neg hab] at h1
          by_cases hbc : b = c
          · subst hbc
            rw [if_neg hab]
            exact h1
          · rw [if_neg hbc] at h2
            have hac : a < c := lt_trans (by simpa using h1) (by simpa using h2)
            have hne : a ≠ c := ne_of_lt hac
            rw [if_neg hne]
            simpa using hac

/-! ## The filesystem model

`FSNode` models what the walker can observe of a path:

* `file isLink size?` — a non-directory entry; `isLink` is the value of
  `os.path.islink`, `size?` is `some n` when `os.path.getsize` returns
  `n` and `none` when it raises.
* `dir isLink ident size? readable entries` — a directory (after
  following the link when `isLink` is true); `ident` is the
  `(st_dev, st_ino)` pair of `os.stat` (the source maps a failing `stat`
  to `(-1, -1)`, hence `Int`); `readable = false` models `os.scandir`
  raising `PermissionError` (`iter_entries` then returns `[]`);
  `entries` are the raw directory entries in on-disk order.  A
  symlink-to-directory node carries the identity and entries of its
  target, which is what the `follow_symlinks` probes observe; a symlink
  cycle appears as a finite tree in which a descendant repeats an
  ancestor's `ident`.
* `denied` — an entry for which the `os.path.islink` / `entry.is_dir`
  probe pair at md_tree.py lines 99–101 raises `PermissionError`.  Such
  an entry sorts as a non-directory (the no-follow `is_dir` used by the
  sort key at line 41 comes from the `scandir` data and does not raise).
-/

abbrev Ident := Int × Int

inductive FSNode where
  | file (isLink : Bool) (size? : Option Nat)
  | dir (isLink : Bool) (ident : Ident) (size? : Option Nat) (readable : Bool)
        (entries : List (Str × FSNode))
  | denied

/-- The configuration surface of `build_tree_json`. -/
structure Cfg where
  maxDepth : Nat
  includeHidden : Bool
  showSizes : Bool
  excludes : List Str
  followSymlinks : Bool

/-- The size information attached to a `file` output node: absent when
`show_sizes` is off, `ok` with the human-readable string and the byte
count when `os.path.getsize` succeeds, `failed` (the `"?"` marker) when
it raises. -/
inductive SizeField where
  | absent
  | ok (human : String) (bytes : Nat)
  | failed
deriving DecidableEq

/-- Output nodes: the JSON dictionaries produced by `make_node`
(`type`/`name`/`relpath` plus the per-type fields). -/
inductive JN where
  | dir (name relpath : Str) (children : List JN) (cycleDetected : Bool)
  | file (name relpath : Str) (isLink : Bool) (ext : Str) (size : SizeField)
  | unknown (name relpath : Str) (error : String)

/-- `os.path.islink` on the modelled path (returns `False` on errors,
so `denied` maps to `false`). -/
def isLinkFS : FSNode → Bool
  | .file l _ => l
  | .dir l _ _ _ _ => l
  | .denied => false

/-- `entry.is_dir(follow_symlinks=False)`. -/
def isDirNoFollow : FSNode → Bool
  | .dir l _ _ _ _ => !l
  | _ => false

/-- `os.path.isdir` / `entry.is_dir(follow_symlinks=True)`. -/
def isDirFollow : FSNode → Bool
  | .dir _ _ _ _ _ => true
  | _ => false

/-- The directory test of md_tree.py line 71 and line 101:
`isdir(path)` when following symlinks, otherwise
`isdir(path) and not islink(path)`. -/
def entryIsDir (follow : Bool) (n : FSNode) : Bool :=
  if follow then isDirFollow n else isDirNoFollow n

/-- Discriminator for the `except PermissionError` entries. -/
def isDenied : FSNode → Bool
  | .denied => true
  | _ => false

/-- `os.path.getsize`: `none` models a raised exception. -/
def getsizeFS : FSNode → Option Nat
  | .file _ s => s
  | .dir _ _ s _ _ => s
  | .denied => none

/-- `should_skip` (md_tree.py lines 57–60). -/
def should_skip (cfg : Cfg) (name : Str) : Bool :=
  if name ∈ cfg.excludes then true
  else if !cfg.includeHidden && name.head? = some '.' then true
  else false

/-- The sort key of md_tree.py line 41:
`(not e.is_dir(follow_symlinks=False), e.name.lower())`.  Note the
deliberate `follow_symlinks=False`: for sorting, a symlink to a
directory counts as a non-directory. -/
def entryKey (e : Str × FSNode) : Bool × Str := (!isDirNoFollow e.2, lowerStr e.1)

/-- Python's `<=` on key tuples `(bool, str)` (with `False < True`). -/
def keyLE : Bool × Str → Bool × Str → Bool
  | (b1, s1), (b2, s2) => if b1 = b2 then lexLe s1 s2 else (!b1 && b2)

def entryLE (e1 e2 : Str × FSNode) : Bool := keyLE (entryKey e1) (entryKey e2)

/-- `iter_entries` (md_tree.py lines 35–42): an unreadable directory
yields `[]` (the `except PermissionError` branch), otherwise the entries
stably sorted by `entryKey`. -/
def iter_entries (readable : Bool) (entries : List (Str × FSNode)) :
    List (Str × FSNode) :=
  if readable then stableSort entryLE entries else []

/-- `os.path.splitext(name)[1]` for a base name: the suffix from the
last dot on, provided some character before that dot is not itself a dot
(leading dots never start an extension).  For the root-file case the
source applies `splitext` to the whole absolute path, which yields the
same extension as applying it to the base name. -/
def pyExt (name : Str) : Str :=
  match (name.reverse.takeWhile (· ≠ '.')).length, name.length with
  | k, n =>
    if k < n ∧ (name.take (n - k - 1)).any (· ≠ '.') then name.drop (n - k - 1)
    else []

/-- `os.path.join(relpath, name)` for the shapes that occur here
(`relpath` empty or not ending in a separator). -/
def pyJoin (relpath name : Str) : Str :=
  if relpath = [] then name else relpath ++ '/' :: name

/-- The `show_sizes` block of md_tree.py lines 121–127 / 140–146. -/
def sizeField (cfg : Cfg) (node : FSNode) : SizeField :=
  if cfg.showSizes then
    match getsizeFS node with
    | some b => .ok (human_size b) b
    | none => .failed
  else .absent

/-- A `file` output node (md_tree.py lines 114–128 and 133–147). -/
def fileJN (cfg : Cfg) (node : FSNode) (name relpath : Str) : JN :=
  .file name relpath (isLinkFS node) (pyExt name) (sizeField cfg node)

theorem iter_entries_sizeOf (readable : Bool) (entries : List (Str × FSNode)) :
    sizeOf (iter_entries readable entries) ≤ sizeOf entries := by
  unfold iter_entries
  split
  · exact le_of_eq (stableSort_sizeOf entryLE entries)
  · cases entries with
    | nil => simp
    | cons e es => simp; omega

theorem iter_entries_lt (l : Bool) (i : Ident) (s : Option Nat) (r : Bool)
    (e : List (Str × FSNode)) :
    sizeOf (iter_entries r e) < sizeOf (FSNode.dir l i s r e) := by
  have h := iter_entries_sizeOf r e
  simp
  omega

/-! ## `make_node` (md_tree.py lines 69–147)

The mutable closure state `seen_inodes` is threaded explicitly: both
functions return the updated set alongside their result.
`make_children` is the `for entry in iter_entries(path)` loop.  `name`
is `os.path.basename(path)` (for a child, the entry name). -/

mutual

def make_node (cfg : Cfg) (node : FSNode) (name relpath : Str) (depth : Nat)
    (seen : List Ident) : JN × List Ident :=
  match node with
  | .dir isLink ident _ readable entries =>
    if cfg.followSymlinks || !isLink then
      -- `is_dir` holds: lines 75–130
      let nm := if name = [] then relpath else name
      let rp := if relpath = [] then str "." else relpath
      if cfg.maxDepth ≠ 0 ∧ depth > cfg.maxDepth then
        (.dir nm rp [] false, seen)
      else if cfg.followSymlinks && decide (ident ∈ seen) then
        (.dir nm rp [] true, seen)
      else
        let seen1 := if cfg.followSymlinks then ident :: seen else seen
        let res := make_children cfg (iter_entries readable entries) relpath
          depth seen1
        (.dir nm rp res.1 false, res.2)
    else
      -- a symlink to a directory, not followed: the file branch
      (fileJN cfg node name (if relpath = [] then name else relpath), seen)
  | _ =>
    -- lines 131–147 (root could be a file); `relpath or basename`
    (fileJN cfg node name (if relpath = [] then name else relpath), seen)
termination_by sizeOf node
decreasing_by
  exact iter_entries_lt _ _ _ _ _

def make_children (cfg : Cfg) (entries : List (Str × FSNode)) (relpath : Str)
    (depth : Nat) (seen : List Ident) : List JN × List Ident :=
  match entries with
  | [] => ([], seen)
  | (nm, child) :: rest =>
    if should_skip cfg nm then make_children cfg rest relpath depth seen
    else if isDenied child then
      -- lines 99–109: the probe raises `PermissionError`
      let res := make_children cfg rest relpath depth seen
      (.unknown nm (pyJoin relpath nm) "permission_denied" :: res.1, res.2)
    else if entryIsDir cfg.followSymlinks child then
      let r1 := make_node cfg child nm (pyJoin relpath nm) (depth + 1) seen
      let r2 := make_children cfg rest relpath depth r1.2
      (r1.1 :: r2.1, r2.2)
    else
      let res := make_children cfg rest relpath depth seen
      (fileJN cfg child nm (pyJoin relpath nm) :: res.1, res.2)
termination_by sizeOf entries
decreasing_by
  all_goals simp <;> omega

end

/-- `build_tree_json` (md_tree.py lines 44–149): the root is passed as a
resolved base name plus the `FSNode` it denotes, and the walk starts
with `relpath = ""`, `depth = 0` and an empty identity set. -/
def build_tree_json (cfg : Cfg) (rootName : Str) (root : FSNode) : JN :=
  (make_node cfg root rootName [] 0 []).1

/-! ## Accessors and invariant predicates on output nodes -/

def jnIsDir : JN → Bool
  | .dir _ _ _ _ => true
  | _ => false

def jnName : JN → Str
  | .dir n _ _ _ => n
  | .file n _ _ _ _ => n
  | .unknown n _ _ => n

def jnRelpath : JN → Str
  | .dir _ r _ _ => r
  | .file _ r _ _ _ => r
  | .unknown _ r _ => r

def jnChildren : JN → List JN
  | .dir _ _ cs _ => cs
  | _ => []

def jnCycle : JN → Bool
  | .dir _ _ _ cy => cy
  | _ => false

/-- The sort key as visible on an output node. -/
def jnKey (c : JN) : Bool × Str := (!jnIsDir c, lowerStr (jnName c))

/-- Pairwise sortedness (by `jnKey`) of a children list. -/
def jnPairwiseB : List JN → Bool
  | [] => true
  | c :: rest => rest.all (fun d => keyLE (jnKey c) (jnKey d)) && jnPairwiseB rest

mutual

/-- Every directory node in the tree has its children pairwise ordered
by the sort key (directories-without-following first, then
case-insensitive name). -/
def sortedJNb : JN → Bool
  | .dir _ _ cs _ => jnPairwiseB cs && sortedListB cs
  | _ => true

def sortedListB : List JN → Bool
  | [] => true
  | c :: rest => sortedJNb c && sortedListB rest

end

/-- The ordering asserted by the specification: every `dir` child
precedes every `file`/`unknown` child. -/
def dirsFirstB : List JN → Bool
  | [] => true
  | c :: rest =>
    (jnIsDir c || rest.all (fun d => !jnIsDir d)) && dirsFirstB rest

mutual

/-- No node anywhere in the tree carries the `cycle_detected` mark. -/
def noCycleB : JN → Bool
  | .dir _ _ cs cy => !cy && noCycleListB cs
  | _ => true

def noCycleListB : List JN → Bool
  | [] => true
  | c :: rest => noCycleB c && noCycleListB rest

end

/-- A name that survives filtering: not in `excludes` and not hidden
unless hidden entries are included. -/
def nameOkB (cfg : Cfg) (n : Str) : Bool :=
  !decide (n ∈ cfg.excludes) && (cfg.includeHidden || !(n.head? == some '.'))

mutual

/-- Every node strictly below the root has a name that survives
filtering. -/
def subOkB (cfg : Cfg) : JN → Bool
  | .dir _ _ cs _ => subOkListB cfg cs
  | _ => true

def subOkListB (cfg : Cfg) : List JN → Bool
  | [] => true
  | c :: rest => nameOkB cfg (jnName c) && subOkB cfg c && subOkListB cfg rest

end

mutual

/-- Well-formedness of a modelled filesystem: every entry name is
non-empty (as is the case for any real directory entry). -/
def nodeWFb : FSNode → Bool
  | .dir _ _ _ _ entries => entriesWFb entries
  | _ => true

def entriesWFb : List (Str × FSNode) → Bool
  | [] => true
  | (nm, c) :: rest => !nm.isEmpty && nodeWFb c && entriesWFb rest

end

theorem nameOkB_eq_not_skip (cfg : Cfg) (n : Str) :
    nameOkB cfg n = !should_skip cfg n := by
  simp only [nameOkB, should_skip]
  by_cases h1 : n ∈ cfg.excludes
  · simp [h1]
  · simp [h1]
    cases hh : cfg.includeHidden <;> cases hd : n.head? == some '.' <;>
      simp_all

/-! ### Unfolding lemmas for the walker -/

theorem make_node_dir (cfg : Cfg) (il : Bool) (id : Ident) (sz : Option Nat)
    (rd : Bool) (en : List (Str × FSNode)) (nm rp : Str) (d : Nat)
    (seen : List Ident) (h : (cfg.followSymlinks || !il) = true) :
    make_node cfg (.dir il id sz rd en) nm rp d seen =
      (if cfg.maxDepth ≠ 0 ∧ d > cfg.maxDepth then
        (JN.dir (if nm = [] then rp else nm)
          (if rp = [] then str "." else rp) [] false, seen)
      else if cfg.followSymlinks && decide (id ∈ seen) then
        (JN.dir (if nm = [] then rp else nm)
          (if rp = [] then str "." else rp) [] true, seen)
      else
        (JN.dir (if nm = [] then rp else nm)
          (if rp = [] then str "." else rp)
          (make_children cfg (iter_entries rd en) rp d
            (if cfg.followSymlinks then id :: seen else seen)).1 false,
         (make_children cfg (iter_entries rd en) rp d
            (if cfg.followSymlinks then id :: seen else seen)).2)) := by
  rw [make_node]
  simp only [h, if_true]

theorem make_node_notdir (cfg : Cfg) (node : FSNode) (nm rp : Str) (d : Nat)
    (seen : List Ident) (h : entryIsDir cfg.followSymlinks node = false) :
    make_node cfg node nm rp d seen =
      (fileJN cfg node nm (if rp = [] then nm else rp), seen) := by
  cases node with
  | dir il id sz rd en =>
    rw [make_node]
    simp only [entryIsDir, isDirFollow, isDirNoFollow] at h
    have h2 : (cfg.followSymlinks || !il) = false := by
      cases hf : cfg.followSymlinks with
      | true =>
        rw [hf] at h
        simp at h
      | false =>
        rw [hf] at h
        simp at h
        simp [h]
    simp [h2]
  | file il s =>
    rw [make_node]
    all_goals intro a b c d e heq
    all_goals exact FSNode.noConfusion heq
  | denied =>
    rw [make_node]
    all_goals intro a b c d e heq
    all_goals exact FSNode.noConfusion heq

theorem make_children_nil (cfg : Cfg) (rp : Str) (d : Nat)
    (seen : List Ident) : make_children cfg [] rp d seen = ([], seen) := by
  rw [make_children]

theorem make_children_cons_skip (cfg : Cfg) (nm : Str) (child : FSNode)
    (rest : List (Str × FSNode)) (rp : Str) (d : Nat) (seen : List Ident)
    (h : should_skip cfg nm = true) :
    make_children cfg ((nm, child) :: rest) rp d seen =
      make_children cfg rest rp d seen := by
  rw [make_children]
  simp only [h, if_true]

theorem make_children_cons_denied (cfg : Cfg) (nm : Str)
    (rest : List (Str × FSNode)) (rp : Str) (d : Nat) (seen : List Ident)
    (h : should_skip cfg nm = false) :
    make_children cfg ((nm, .denied) :: rest) rp d seen =
      ((.unknown nm (pyJoin rp nm) "permission_denied") ::
          (make_children cfg rest rp d seen).1,
        (make_children cfg rest rp d seen).2) := by
  rw [make_children]
  simp only [h, Bool.false_eq_true, if_false, isDenied, if_true]

theorem make_children_cons_dir (cfg : Cfg) (nm : Str) (child : FSNode)
    (rest : List (Str × FSNode)) (rp : Str) (d : Nat) (seen : List Ident)
    (h : should_skip cfg nm = false) (hnd : isDenied child = false)
    (hdir : entryIsDir cfg.followSymlinks child = true) :
    make_children cfg ((nm, child) :: rest) rp d seen =
      ((make_node cfg child nm (pyJoin rp nm) (d + 1) seen).1 ::
          (make_children cfg rest rp d
            (make_node cfg child nm (pyJoin rp nm) (d + 1) seen).2).1,
        (make_children cfg rest rp d
          (make_node cfg child nm (pyJoin rp nm) (d + 1) seen).2).2) := by
  rw [make_children]
  simp only [h, Bool.false_eq_true, if_false, hnd, hdir, if_true]

theorem make_children_cons_file (cfg : Cfg) (nm : Str) (child : FSNode)
    (rest : List (Str × FSNode)) (rp : Str) (d : Nat) (seen : List Ident)
    (h : should_skip cfg nm = false) (hnd : isDenied child = false)
    (hdir : entryIsDir cfg.followSymlinks child = false) :
    make_children cfg ((nm, child) :: rest) rp d seen =
      (fileJN cfg child nm (pyJoin rp nm) ::
          (make_children cfg rest rp d seen).1,
        (make_children cfg rest rp d seen).2) := by
  rw [make_children]
  simp only [h, Bool.false_eq_true, if_false, hnd, hdir]

/-! ### Induction scaffolding -/

theorem entryIsDir_file (f il : Bool) (s : Option Nat) :
    entryIsDir f (.file il s) = false := by
  cases f <;> rfl

theorem entryIsDir_denied (f : Bool) : entryIsDir f .denied = false := by
  cases f <;> rfl

theorem entryIsDir_dir (f il : Bool) (id : Ident) (sz : Option Nat)
    (rd : Bool) (en : List (Str × FSNode)) :
    entryIsDir f (.dir il id sz rd en) = (f || !il) := by
  cases f <;> rfl

/-- Strong induction on the size of a modelled filesystem node. -/
theorem fs_strong_ind (P : FSNode → Prop)
    (h : ∀ n, (∀ m, sizeOf m < sizeOf n → P m) → P n) : ∀ n, P n :=
  fun n => h n (fun m _ => fs_strong_ind P h m)
termination_by n => sizeOf n
decreasing_by omega

theorem mem_iter_entries_sizeOf {e : Str × FSNode} {rd : Bool}
    {en : List (Str × FSNode)} (he : e ∈ iter_entries rd en)
    (il : Bool) (id : Ident) (sz : Option Nat) :
    sizeOf e.2 < sizeOf (FSNode.dir il id sz rd en) := by
  have h1 : e ∈ en := by
    unfold iter_entries at he
    split at he
    · exact (mem_stableSort entryLE en e).mp he
    · simp at he
  have h2 := List.sizeOf_lt_of_mem h1
  obtain ⟨a, b⟩ := e
  simp at h2 ⊢
  omega

/-! ### Claim C9 -/

/-- C9, counterexample to the claim as stated: when the root is itself a
file, the produced single `file` node carries the root's base name as its
`relpath`, not the sentinel `"."` (line 136 of the source evaluates
`relpath or os.path.basename(path)` with `relpath = ""`). -/
theorem root_relpath_cex :
    jnRelpath (build_tree_json ⟨0, false, false, [], false⟩ (str "a.txt")
      (FSNode.file false (some 0))) = str "a.txt" ∧
    str "a.txt" ≠ str "." := by
  constructor
  · rw [build_tree_json, make_node_notdir _ _ _ _ _ _
      (entryIsDir_file _ _ _)]
    rfl
  · decide

/-- C9, amended: the root node of `build_tree_json` has `relpath` equal
to the sentinel `"."` whenever the root is walked as a directory; when
the root is itself a file (or an inaccessible path), the result is a
single `file` node whose `relpath` is the root's base name, not the
sentinel. -/
theorem build_root_relpath (cfg : Cfg) (nm : Str) (root : FSNode) :
    (entryIsDir cfg.followSymlinks root = true →
      jnRelpath (build_tree_json cfg nm root) = str ".") ∧
    (entryIsDir cfg.followSymlinks root = false →
      build_tree_json cfg nm root = fileJN cfg root nm nm) := by
  constructor
  · intro h
    cases root with
    | dir il id sz rd en =>
      have hc : (cfg.followSymlinks || !il) = true := by
        rw [entryIsDir_dir] at h
        exact h
      rw [build_tree_json, make_node_dir _ _ _ _ _ _ _ _ _ _ hc]
      split
      · simp [jnRelpath]
      · split
        · simp [jnRelpath]
        · simp [jnRelpath]
    | file il s => rw [entryIsDir_file] at h; cases h
    | denied => rw [entryIsDir_denied] at h; cases h
  · intro h
    rw [build_tree_json, make_node_notdir _ _ _ _ _ _ h]
    rfl

theorem build_root_relpath_witness :
    jnRelpath (build_tree_json ⟨0, false, false, [], false⟩ (str "d")
      (FSNode.dir false (1, 1) none true [])) = str "." ∧
    build_tree_json ⟨0, false, false, [], false⟩ (str "f.md")
      (FSNode.file false none) =
      fileJN ⟨0, false, false, [], false⟩ (FSNode.file false none)
        (str "f.md") (str "f.md") :=
  ⟨(build_root_relpath ⟨0, false, false, [], false⟩ (str "d")
      (FSNode.dir false (1, 1) none true [])).1 (by decide),
   (build_root_relpath ⟨0, false, false, [], false⟩ (str "f.md")
      (FSNode.file false none)).2 (by decide)⟩

/-! ### Claim C3 -/

theorem mc_depth_irrel (cfg : Cfg) (l : List (Str × FSNode))
    (hIH : ∀ e ∈ l, ∀ (nm rp : Str) (d d' : Nat) (seen : List Ident),
      make_node cfg e.2 nm rp d seen = make_node cfg e.2 nm rp d' seen) :
    ∀ (rp : Str) (d d' : Nat) (seen : List Ident),
      make_children cfg l rp d seen = make_children cfg l rp d' seen := by
  induction l with
  | nil =>
    intro rp d d' seen
    rw [make_children_nil, make_children_nil]
  | cons e rest ihl =>
    intro rp d d' seen
    obtain ⟨nm, child⟩ := e
    have hIHrest : ∀ e ∈ rest, ∀ (nm rp : Str) (d d' : Nat)
        (seen : List Ident),
        make_node cfg e.2 nm rp d seen = make_node cfg e.2 nm rp d' seen :=
      fun e he => hIH e (List.mem_cons_of_mem _ he)
    cases hskip : should_skip cfg nm with
    | true =>
      rw [make_children_cons_skip _ _ _ _ _ _ _ hskip,
        make_children_cons_skip _ _ _ _ _ _ _ hskip]
      exact ihl hIHrest rp d d' seen
    | false =>
      cases hden : isDenied child with
      | true =>
        have hchild : child = .denied := by
          cases child
          · simp [isDenied] at hden
          · simp [isDenied] at hden
          · rfl
        subst hchild
        rw [make_children_cons_denied _ _ _ _ _ _ hskip,
          make_children_cons_denied _ _ _ _ _ _ hskip,
          ihl hIHrest rp d d' seen]
      | false =>
        cases hdir : entryIsDir cfg.followSymlinks child with
        | true =>
          have h1 := hIH (nm, child) (List.mem_cons_self _ _) nm
            (pyJoin rp nm) (d + 1) (d' + 1) seen
          rw [make_children_cons_dir _ _ _ _ _ _ _ hskip hden hdir,
            make_children_cons_dir _ _ _ _ _ _ _ hskip hden hdir, h1,
            ihl hIHrest rp d d' _]
        | false =>
          rw [make_children_cons_file _ _ _ _ _ _ _ hskip hden hdir,
            make_children_cons_file _ _ _ _ _ _ _ hskip hden hdir,
            ihl hIHrest rp d d' seen]

theorem mn_depth_irrel (cfg : Cfg) (hmd : cfg.maxDepth = 0) (node : FSNode) :
    ∀ (nm rp : Str) (d d' : Nat) (seen : List Ident),
      make_node cfg node nm rp d seen = make_node cfg node nm rp d' seen := by
  induction node using fs_strong_ind with
  | h node IH =>
    cases node with
    | file il s =>
      intro nm rp d d' seen
      rw [make_node_notdir _ _ _ _ _ _ (entryIsDir_file _ _ _),
        make_node_notdir _ _ _ _ _ _ (entryIsDir_file _ _ _)]
    | denied =>
      intro nm rp d d' seen
      rw [make_node_notdir _ _ _ _ _ _ (entryIsDir_denied _),
        make_node_notdir _ _ _ _ _ _ (entryIsDir_denied _)]
    | dir il id sz rd en =>
      intro nm rp d d' seen
      cases hc : (cfg.followSymlinks || !il) with
      | false =>
        have h := (entryIsDir_dir cfg.followSymlinks il id sz rd en).trans hc
        rw [make_node_notdir _ _ _ _ _ _ h, make_node_notdir _ _ _ _ _ _ h]
      | true =>
        rw [make_node_dir _ _ _ _ _ _ _ _ _ _ hc,
          make_node_dir _ _ _ _ _ _ _ _ _ _ hc]
        rw [if_neg (show ¬ (cfg.maxDepth ≠ 0 ∧ d > cfg.maxDepth) by
            simp [hmd]),
          if_neg (show ¬ (cfg.maxDepth ≠ 0 ∧ d' > cfg.maxDepth) by
            simp [hmd])]
        have hmc := mc_depth_irrel cfg (iter_entries rd en)
          (fun e he => IH e.2 (mem_iter_entries_sizeOf he il id sz))
        by_cases hcy : (cfg.followSymlinks && decide (id ∈ seen)) = true
        · rw [if_pos hcy, if_pos hcy]
        · rw [if_neg hcy, if_neg hcy,
            hmc rp d d' (if cfg.followSymlinks then id :: seen else seen)]

theorem mn_truncates (cfg : Cfg) (node : FSNode) (nm rp : Str) (d : Nat)
    (seen : List Ident) (h0 : cfg.maxDepth ≠ 0) (hd : d > cfg.maxDepth)
    (hdir : entryIsDir cfg.followSymlinks node = true) :
    make_node cfg node nm rp d seen =
      (JN.dir (if nm = [] then rp else nm)
        (if rp = [] then str "." else rp) [] false, seen) := by
  cases node with
  | dir il id sz rd en =>
    have hc : (cfg.followSymlinks || !il) = true := by
      rw [entryIsDir_dir] at hdir
      exact hdir
    rw [make_node_dir _ _ _ _ _ _ _ _ _ _ hc, if_pos ⟨h0, hd⟩]
  | file il s => rw [entryIsDir_file] at hdir; cases hdir
  | denied => rw [entryIsDir_denied] at hdir; cases hdir

/-- A three-level directory chain used to exercise `max_depth = 1`. -/
def c3FS : FSNode :=
  .dir false (1, 1) none true
    [(str "a", .dir false (2, 2) none true
      [(str "b", .dir false (3, 3) none true
        [(str "c", FSNode.file false none)])])]

/-- The expected output for `c3FS` under `max_depth = 1`. -/
def c3Out : JN :=
  .dir (str "r") (str ".")
    [.dir (str "a") (str "a")
      [.dir (str "b") (str "a/b") [] false] false] false

/-- C3: `max_depth = 0` means unlimited (the result of the walk does not
depend on the running depth counter at all); with a positive `max_depth`,
a directory deeper than the limit is still emitted as a `dir` node, with
its children list empty; in particular with `max_depth = 1` the directory
`b` two levels below the root appears as a `dir` node with empty
`children`. -/
theorem max_depth_spec (cfg : Cfg) (node : FSNode) (nm rp : Str)
    (d d' : Nat) (seen : List Ident) :
    (cfg.maxDepth = 0 →
      make_node cfg node nm rp d seen = make_node cfg node nm rp d' seen) ∧
    (cfg.maxDepth ≠ 0 → d > cfg.maxDepth →
      entryIsDir cfg.followSymlinks node = true →
      make_node cfg node nm rp d seen =
        (JN.dir (if nm = [] then rp else nm)
          (if rp = [] then str "." else rp) [] false, seen)) ∧
    build_tree_json ⟨1, false, false, [], false⟩ (str "r") c3FS = c3Out := by
  refine ⟨fun hmd => mn_depth_irrel cfg hmd node nm rp d d' seen,
    fun h0 hd hdir => mn_truncates cfg node nm rp d seen h0 hd hdir, ?_⟩
  rw [build_tree_json]
  simp +decide [c3FS, c3Out, make_node_dir, make_children_cons_dir,
    make_children_nil, mn_truncates, iter_entries, stableSort,
    stableSortAux, insertAfterLe, pyJoin]

theorem max_depth_spec_witness :
    make_node ⟨0, true, false, [], false⟩
        (FSNode.dir false (1, 1) none true []) (str "d") [] 5 [] =
      make_node ⟨0, true, false, [], false⟩
        (FSNode.dir false (1, 1) none true []) (str "d") [] 9 [] ∧
    make_node ⟨2, true, false, [], false⟩
        (FSNode.dir false (1, 1) none true []) (str "d") (str "x/d") 3 [] =
      (JN.dir (str "d") (str "x/d") [] false, []) := by
  constructor
  · exact (max_depth_spec ⟨0, true, false, [], false⟩
      (FSNode.dir false (1, 1) none true []) (str "d") [] 5 9 []).1 rfl
  · have h := (max_depth_spec ⟨2, true, false, [], false⟩
      (FSNode.dir false (1, 1) none true []) (str "d") (str "x/d") 3 3 []).2.1
      (by decide) (by decide) (by decide)
    rw [h]
    rfl

/-! ### Claim C8 -/

/-- C8: an entry whose probe raises `PermissionError` becomes an
`unknown` node carrying the reason `"permission_denied"`, and the walk of
the remaining entries continues exactly as it would have without the
failing entry (same children, same identity set); the third conjunct
shows a full walk in which the sibling after the failing entry is still
emitted. -/
theorem permission_denied_spec (cfg : Cfg) (nm : Str)
    (rest : List (Str × FSNode)) (rp : Str) (d : Nat) (seen : List Ident)
    (h : should_skip cfg nm = false) :
    (make_children cfg ((nm, .denied) :: rest) rp d seen).1 =
      .unknown nm (pyJoin rp nm) "permission_denied" ::
        (make_children cfg rest rp d seen).1 ∧
    (make_children cfg ((nm, .denied) :: rest) rp d seen).2 =
      (make_children cfg rest rp d seen).2 ∧
    build_tree_json ⟨0, false, false, [], false⟩ (str "r")
        (.dir false (1, 1) none true
          [(str "locked", .denied), (str "z", .file false none)]) =
      .dir (str "r") (str ".")
        [.unknown (str "locked") (str "locked") "permission_denied",
         .file (str "z") (str "z") false [] .absent] false := by
  refine ⟨?_, ?_, ?_⟩
  · rw [make_children_cons_denied _ _ _ _ _ _ h]
  · rw [make_children_cons_denied _ _ _ _ _ _ h]
  · rw [build_tree_json]
    simp +decide [make_node_dir, make_children_cons_denied,
      make_children_cons_file, make_children_nil, iter_entries, stableSort,
      stableSortAux, insertAfterLe, pyJoin, fileJN, sizeField, getsizeFS,
      isLinkFS, pyExt]

theorem permission_denied_spec_witness :
    (make_children ⟨0, false, false, [], false⟩ [(str "x", .denied)]
        [] 0 []).1 =
      [.unknown (str "x") (str "x") "permission_denied"] := by
  have h := (permission_denied_spec ⟨0, false, false, [], false⟩ (str "x")
    [] [] 0 [] (by decide)).1
  rw [h, make_children_nil]
  rfl

/-! ### Claim C5 -/

theorem noCycle_fileJN (cfg : Cfg) (node : FSNode) (nm rp : Str) :
    noCycleB (fileJN cfg node nm rp) = true := by
  simp [fileJN, noCycleB]

theorem noCycleListB_all (cs : List JN) :
    noCycleListB cs = true ↔ ∀ c ∈ cs, noCycleB c = true := by
  induction cs with
  | nil => simp [noCycleListB]
  | cons c rest ih => simp [noCycleListB, ih]

theorem mc_nocycle (cfg : Cfg) (l : List (Str × FSNode))
    (hIH : ∀ e ∈ l, ∀ (nm rp : Str) (d : Nat) (seen : List Ident),
      noCycleB (make_node cfg e.2 nm rp d seen).1 = true) :
    ∀ (rp : Str) (d : Nat) (seen : List Ident),
      noCycleListB (make_children cfg l rp d seen).1 = true := by
  induction l with
  | nil =>
    intro rp d seen
    rw [make_children_nil]
    rfl
  | cons e rest ihl =>
    intro rp d seen
    obtain ⟨nm, child⟩ := e
    have hIHrest : ∀ e ∈ rest, ∀ (nm rp : Str) (d : Nat)
        (seen : List Ident),
        noCycleB (make_node cfg e.2 nm rp d seen).1 = true :=
      fun e he => hIH e (List.mem_cons_of_mem _ he)
    cases hskip : should_skip cfg nm with
    | true =>
      rw [make_children_cons_skip _ _ _ _ _ _ _ hskip]
      exact ihl hIHrest rp d seen
    | false =>
      cases hden : isDenied child with
      | true =>
        have hchild : child = .denied := by
          cases child
          · simp [isDenied] at hden
          · simp [isDenied] at hden
          · rfl
        subst hchild
        rw [make_children_cons_denied _ _ _ _ _ _ hskip]
        simp only [noCycleListB, noCycleB, Bool.true_and]
        exact ihl hIHrest rp d seen
      | false =>
        cases hdir : entryIsDir cfg.followSymlinks child with
        | true =>
          rw [make_children_cons_dir _ _ _ _ _ _ _ hskip hden hdir]
          simp only [noCycleListB, Bool.and_eq_true]
          exact ⟨hIH (nm, child) (List.mem_cons_self _ _) nm
            (pyJoin rp nm) (d + 1) seen, ihl hIHrest rp d _⟩
        | false =>
          rw [make_children_cons_file _ _ _ _ _ _ _ hskip hden hdir]
          simp only [noCycleListB, Bool.and_eq_true]
          exact ⟨noCycle_fileJN cfg child nm (pyJoin rp nm),
            ihl hIHrest rp d seen⟩

theorem mn_nocycle (cfg : Cfg) (hf : cfg.followSymlinks = false)
    (node : FSNode) :
    ∀ (nm rp : Str) (d : Nat) (seen : List Ident),
      noCycleB (make_node cfg node nm rp d seen).1 = true := by
  induction node using fs_strong_ind with
  | h node IH =>
    cases node with
    | file il s =>
      intro nm rp d seen
      rw [make_node_notdir _ _ _ _ _ _ (entryIsDir_file _ _ _)]
      exact noCycle_fileJN _ _ _ _
    | denied =>
      intro nm rp d seen
      rw [make_node_notdir _ _ _ _ _ _ (entryIsDir_denied _)]
      exact noCycle_fileJN _ _ _ _
    | dir il id sz rd en =>
      intro nm rp d seen
      cases hc : (cfg.followSymlinks || !il) with
      | false =>
        have h := (entryIsDir_dir cfg.followSymlinks il id sz rd en).trans hc
        rw [make_node_notdir _ _ _ _ _ _ h]
        exact noCycle_fileJN _ _ _ _
      | true =>
        rw [make_node_dir _ _ _ _ _ _ _ _ _ _ hc]
        by_cases hdep : cfg.maxDepth ≠ 0 ∧ d > cfg.maxDepth
        · rw [if_pos hdep]
          rfl
        · rw [if_neg hdep,
            if_neg (show ¬ (cfg.followSymlinks &&
              decide (id ∈ seen)) = true by simp [hf])]
          simp only [noCycleB, Bool.not_false, Bool.true_and]
          exact mc_nocycle cfg (iter_entries rd en)
            (fun e he => IH e.2 (mem_iter_entries_sizeOf he il id sz)) rp d _

/-- The filesystem used for the C5 counterexample: under `max_depth = 1`
and symlink-following, the directory `b` repeats the root's identity
`(1, 1)` but sits at depth 2, beyond the limit. -/
def cycFS : FSNode :=
  .dir false (1, 1) none true
    [(str "a", .dir false (5, 5) none true
      [(str "b", .dir false (1, 1) none true [])])]

/-- C5, counterexample to the claim as stated: the depth check at
md_tree.py line 82 precedes the cycle check at lines 86–91, so a
directory whose `(st_dev, st_ino)` identity was already visited but
which lies beyond a positive `max_depth` is emitted as a plain `dir`
node with no `cycle_detected` mark.  Here `b` has the root's identity
`(1, 1)`, which is in the running identity set `[(5, 5), (1, 1)]` when
`b` is reached at depth 2 under `max_depth = 1`. -/
theorem cycle_detected_cex :
    ((1, 1) : Ident) ∈ ([(5, 5), (1, 1)] : List Ident) ∧
    make_node ⟨1, false, false, [], true⟩ (.dir false (1, 1) none true [])
        (str "b") (str "a/b") 2 [(5, 5), (1, 1)] =
      (.dir (str "b") (str "a/b") [] false, [(5, 5), (1, 1)]) ∧
    build_tree_json ⟨1, false, false, [], true⟩ (str "r") cycFS =
      .dir (str "r") (str ".")
        [.dir (str "a") (str "a")
          [.dir (str "b") (str "a/b") [] false] false] false := by
  refine ⟨by decide, ?_, ?_⟩
  · rw [mn_truncates _ _ _ _ _ _ (by decide) (by decide) (by decide)]
    rfl
  · rw [build_tree_json]
    simp +decide [cycFS, make_node_dir, make_children_cons_dir,
      make_children_nil, mn_truncates, iter_entries, stableSort,
      stableSortAux, insertAfterLe, pyJoin]

/-- C5, amended: when symlink-following is enabled, the walker keeps a
device+inode identity set; a directory whose identity was already
visited — provided it is within any positive depth limit, since the
depth check precedes the cycle check — is emitted as a `dir` node marked
`cycle_detected` with no children, is not expanded further, and leaves
the identity set unchanged; when symlink-following is disabled, no node
of the produced tree ever carries the `cycle_detected` mark. -/
theorem cycle_detected_spec (cfg : Cfg) (il : Bool) (id : Ident)
    (sz : Option Nat) (rd : Bool) (en : List (Str × FSNode))
    (node : FSNode) (nm rp : Str) (d : Nat) (seen : List Ident) :
    (cfg.followSymlinks = true → ¬ (cfg.maxDepth ≠ 0 ∧ d > cfg.maxDepth) →
      id ∈ seen →
      make_node cfg (.dir il id sz rd en) nm rp d seen =
        (JN.dir (if nm = [] then rp else nm)
          (if rp = [] then str "." else rp) [] true, seen)) ∧
    (cfg.followSymlinks = false →
      noCycleB (make_node cfg node nm rp d seen).1 = true) := by
  constructor
  · intro hf hdep hmem
    have hc : (cfg.followSymlinks || !il) = true := by simp [hf]
    rw [make_node_dir _ _ _ _ _ _ _ _ _ _ hc, if_neg hdep,
      if_pos (by simp [hf, hmem])]
  · intro hf
    exact mn_nocycle cfg hf node nm rp d seen

theorem cycle_detected_spec_witness :
    make_node ⟨0, false, false, [], true⟩
        (.dir false (3, 3) none true [(str "x", FSNode.file false none)])
        (str "loop") (str "loop") 1 [(3, 3)] =
      (JN.dir (str "loop") (str "loop") [] true, [(3, 3)]) ∧
    noCycleB (make_node ⟨0, false, false, [], false⟩
        (.dir false (3, 3) none true []) (str "d") [] 0 []).1 = true := by
  constructor
  · have h := (cycle_detected_spec ⟨0, false, false, [], true⟩ false (3, 3)
      none true [(str "x", FSNode.file false none)] .denied (str "loop")
      (str "loop") 1 [(3, 3)]).1 rfl (by decide) (by decide)
    rw [h]
    rfl
  · exact (cycle_detected_spec ⟨0, false, false, [], false⟩ false (3, 3)
      none true [] (.dir false (3, 3) none true []) (str "d") [] 0 []).2 rfl

/-! ### Claim C7 -/

theorem mem_iter_entries {e : Str × FSNode} {rd : Bool}
    {en : List (Str × FSNode)} (he : e ∈ iter_entries rd en) : e ∈ en := by
  unfold iter_entries at he
  split at he
  · exact (mem_stableSort entryLE en e).mp he
  · simp at he

theorem entriesWFb_mem {en : List (Str × FSNode)}
    (h : entriesWFb en = true) {e} (he : e ∈ en) :
    e.1 ≠ [] ∧ nodeWFb e.2 = true := by
  induction en with
  | nil => simp at he
  | cons a rest ih =>
    obtain ⟨nm, c⟩ := a
    simp only [entriesWFb, Bool.and_eq_true] at h
    rcases List.mem_cons.mp he with rfl | he
    · exact ⟨by simpa using h.1.1, h.1.2⟩
    · exact ih h.2 he

theorem mn_dir_shape (cfg : Cfg) (node : FSNode) (nm rp : Str) (d : Nat)
    (seen : List Ident)
    (hdir : entryIsDir cfg.followSymlinks node = true) :
    ∃ cs cy, (make_node cfg node nm rp d seen).1 =
      JN.dir (if nm = [] then rp else nm)
        (if rp = [] then str "." else rp) cs cy := by
  cases node with
  | dir il id sz rd en =>
    have hc : (cfg.followSymlinks || !il) = true := by
      rw [entryIsDir_dir] at hdir
      exact hdir
    rw [make_node_dir _ _ _ _ _ _ _ _ _ _ hc]
    split
    · exact ⟨[], false, rfl⟩
    · split
      · exact ⟨[], true, rfl⟩
      · exact ⟨_, false, rfl⟩
  | file il s => rw [entryIsDir_file] at hdir; cases hdir
  | denied => rw [entryIsDir_denied] at hdir; cases hdir

theorem subOk_fileJN (cfg : Cfg) (node : FSNode) (nm rp : Str) :
    subOkB cfg (fileJN cfg node nm rp) = true := by
  simp [fileJN, subOkB]

theorem mc_subok (cfg : Cfg) (l : List (Str × FSNode))
    (hWF : ∀ e ∈ l, e.1 ≠ [] ∧ nodeWFb e.2 = true)
    (hIH : ∀ e ∈ l, ∀ (nm rp : Str) (d : Nat) (seen : List Ident),
      nodeWFb e.2 = true →
      subOkB cfg (make_node cfg e.2 nm rp d seen).1 = true) :
    ∀ (rp : Str) (d : Nat) (seen : List Ident),
      subOkListB cfg ((make_children cfg l rp d seen).1) = true := by
  induction l with
  | nil =>
    intro rp d seen
    rw [make_children_nil]
    rfl
  | cons e rest ihl =>
    intro rp d seen
    obtain ⟨nm, child⟩ := e
    have hWFrest : ∀ e ∈ rest, e.1 ≠ [] ∧ nodeWFb e.2 = true :=
      fun e he => hWF e (List.mem_cons_of_mem _ he)
    have hIHrest : ∀ e ∈ rest, ∀ (nm rp : Str) (d : Nat)
        (seen : List Ident), nodeWFb e.2 = true →
        subOkB cfg (make_node cfg e.2 nm rp d seen).1 = true :=
      fun e he => hIH e (List.mem_cons_of_mem _ he)
    obtain ⟨hnm, hwfc⟩ := hWF (nm, child) (List.mem_cons_self _ _)
    cases hskip : should_skip cfg nm with
    | true =>
      rw [make_children_cons_skip _ _ _ _ _ _ _ hskip]
      exact ihl hWFrest hIHrest rp d seen
    | false =>
      have hok : nameOkB cfg nm = true := by
        rw [nameOkB_eq_not_skip, hskip]
        rfl
      cases hden : isDenied child with
      | true =>
        have hchild : child = .denied := by
          cases child
          · simp [isDenied] at hden
          · simp [isDenied] at hden
          · rfl
        subst hchild
        rw [make_children_cons_denied _ _ _ _ _ _ hskip]
        simp only [subOkListB, jnName, subOkB, hok, Bool.true_and,
          Bool.and_eq_true]
        exact ihl hWFrest hIHrest rp d seen
      | false =>
        cases hdir : entryIsDir cfg.followSymlinks child with
        | true =>
          rw [make_children_cons_dir _ _ _ _ _ _ _ hskip hden hdir]
          obtain ⟨cs, cy, hshape⟩ := mn_dir_shape cfg child nm
            (pyJoin rp nm) (d + 1) seen hdir
          have hsub := hIH (nm, child) (List.mem_cons_self _ _) nm
            (pyJoin rp nm) (d + 1) seen hwfc
          rw [hshape] at hsub
          simp only [subOkListB, hshape, jnName, if_neg hnm, hok,
            Bool.true_and, Bool.and_eq_true]
          exact ⟨hsub, ihl hWFrest hIHrest rp d _⟩
        | false =>
          rw [make_children_cons_file _ _ _ _ _ _ _ hskip hden hdir]
          simp only [subOkListB, fileJN, jnName, subOkB, hok,
            Bool.true_and, Bool.and_eq_true]
          exact ihl hWFrest hIHrest rp d seen

theorem mn_subok (cfg : Cfg) (node : FSNode) :
    ∀ (nm rp : Str) (d : Nat) (seen : List Ident), nodeWFb node = true →
      subOkB cfg (make_node cfg node nm rp d seen).1 = true := by
  induction node using fs_strong_ind with
  | h node IH =>
    cases node with
    | file il s =>
      intro nm rp d seen _
      rw [make_node_notdir _ _ _ _ _ _ (entryIsDir_file _ _ _)]
      exact subOk_fileJN _ _ _ _
    | denied =>
      intro nm rp d seen _
      rw [make_node_notdir _ _ _ _ _ _ (entryIsDir_denied _)]
      exact subOk_fileJN _ _ _ _
    | dir il id sz rd en =>
      intro nm rp d seen hwf
      cases hc : (cfg.followSymlinks || !il) with
      | false =>
        have h := (entryIsDir_dir cfg.followSymlinks il id sz rd en).trans hc
        rw [make_node_notdir _ _ _ _ _ _ h]
        exact subOk_fileJN _ _ _ _
      | true =>
        rw [make_node_dir _ _ _ _ _ _ _ _ _ _ hc]
        have hwfen : entriesWFb en = true := by
          simpa [nodeWFb] using hwf
        by_cases hdep : cfg.maxDepth ≠ 0 ∧ d > cfg.maxDepth
        · rw [if_pos hdep]
          rfl
        · rw [if_neg hdep]
          by_cases hcy : (cfg.followSymlinks && decide (id ∈ seen)) = true
          · rw [if_pos hcy]
            rfl
          · rw [if_neg hcy]
            simp only [subOkB]
            exact mc_subok cfg (iter_entries rd en)
              (fun e he => entriesWFb_mem hwfen (mem_iter_entries he))
              (fun e he nm rp d seen hwfe =>
                IH e.2 (mem_iter_entries_sizeOf he il id sz) nm rp d seen
                  hwfe)
              rp d _

/-- C7: in the tree produced by `build_tree_json`, every node strictly
below the root has a name that is not in `excludes` and, unless hidden
entries are included, does not start with `"."`; hence an excluded or
hidden entry and its entire subtree are absent at every depth (the walk
never descends into it).  The final conjunct shows a concrete walk in
which an excluded directory and everything below it vanish from the
output.  The well-formedness hypothesis `nodeWFb` only states that
directory entries have non-empty names, as on any real filesystem. -/
theorem excludes_spec (cfg : Cfg) (nm : Str) (root : FSNode)
    (hWF : nodeWFb root = true) :
    subOkB cfg (build_tree_json cfg nm root) = true ∧
    build_tree_json ⟨0, false, false, [str "skipme"], false⟩ (str "r")
        (.dir false (1, 1) none true
          [(str "keep", .file false none),
           (str "skipme", .dir false (2, 2) none true
             [(str "inner", .file false none)]),
           (str ".secret", .file false none)]) =
      .dir (str "r") (str ".")
        [.file (str "keep") (str "keep") false [] .absent] false := by
  constructor
  · exact mn_subok cfg root nm [] 0 [] hWF
  · rw [build_tree_json]
    simp +decide [make_node_dir, make_children_cons_skip,
      make_children_cons_file, make_children_nil, iter_entries, stableSort,
      stableSortAux, insertAfterLe, pyJoin, fileJN, sizeField, getsizeFS,
      isLinkFS, pyExt]

theorem excludes_spec_witness :
    subOkB ⟨0, false, false, [str "node_modules"], false⟩
      (build_tree_json ⟨0, false, false, [str "node_modules"], false⟩
        (str "r")
        (.dir false (1, 1) none true
          [(str "node_modules", .dir false (2, 2) none true
            [(str "dep", .file false none)]),
           (str ".hidden", .file false none),
           (str "src", .dir false (3, 3) none true [])])) = true :=
  (excludes_spec ⟨0, false, false, [str "node_modules"], false⟩ (str "r")
    (.dir false (1, 1) none true
      [(str "node_modules", .dir false (2, 2) none true
        [(str "dep", .file false none)]),
       (str ".hidden", .file false none),
       (str "src", .dir false (3, 3) none true [])]) (by decide)).1

/-! ### Claim C4 -/

theorem keyLE_total (k1 k2 : Bool × Str) :
    keyLE k1 k2 = true ∨ keyLE k2 k1 = true := by
  obtain ⟨b1, s1⟩ := k1
  obtain ⟨b2, s2⟩ := k2
  by_cases hb : b1 = b2
  · subst hb
    simpa [keyLE] using lexLe_total s1 s2
  · cases b1 <;> cases b2 <;> simp_all [keyLE]

theorem keyLE_trans (k1 k2 k3 : Bool × Str) (h1 : keyLE k1 k2 = true)
    (h2 : keyLE k2 k3 = true) : keyLE k1 k3 = true := by
  obtain ⟨b1, s1⟩ := k1
  obtain ⟨b2, s2⟩ := k2
  obtain ⟨b3, s3⟩ := k3
  cases b1 <;> cases b2 <;> cases b3 <;> simp_all [keyLE]
  all_goals exact lexLe_trans s1 s2 s3 h1 h2

theorem iter_entries_pairwise (rd : Bool) (en : List (Str × FSNode)) :
    (iter_entries rd en).Pairwise (fun a b => entryLE a b = true) := by
  unfold iter_entries
  split
  · exact pairwise_stableSort entryLE
      (fun a b c h1 h2 => keyLE_trans _ _ _ h1 h2)
      (fun a b => keyLE_total _ _) en
  · simp

theorem jnPairwiseB_iff (cs : List JN) :
    jnPairwiseB cs = true ↔
      cs.Pairwise (fun a b => keyLE (jnKey a) (jnKey b) = true) := by
  induction cs with
  | nil => simp [jnPairwiseB]
  | cons c rest ih =>
    simp only [jnPairwiseB, Bool.and_eq_true, List.all_eq_true,
      List.pairwise_cons, ih]

theorem sortedListB_all (cs : List JN) :
    sortedListB cs = true ↔ ∀ c ∈ cs, sortedJNb c = true := by
  induction cs with
  | nil => simp [sortedListB]
  | cons c rest ih => simp [sortedListB, ih]

theorem mc_keys (cfg : Cfg) (hf : cfg.followSymlinks = false)
    (l : List (Str × FSNode)) (hWFn : ∀ e ∈ l, e.1 ≠ []) :
    ∀ (rp : Str) (d : Nat) (seen : List Ident),
      ((make_children cfg l rp d seen).1.map jnKey) =
        ((l.filter (fun e => !should_skip cfg e.1)).map entryKey) := by
  induction l with
  | nil =>
    intro rp d seen
    rw [make_children_nil]
    rfl
  | cons e rest ihl =>
    intro rp d seen
    obtain ⟨nm, child⟩ := e
    have hWFrest : ∀ e ∈ rest, e.1 ≠ [] :=
      fun e he => hWFn e (List.mem_cons_of_mem _ he)
    have hnm : nm ≠ [] := hWFn (nm, child) (List.mem_cons_self _ _)
    cases hskip : should_skip cfg nm with
    | true =>
      rw [make_children_cons_skip _ _ _ _ _ _ _ hskip]
      simp only [List.filter_cons, hskip, Bool.not_true,
        Bool.false_eq_true, if_false]
      exact ihl hWFrest rp d seen
    | false =>
      cases hden : isDenied child with
      | true =>
        have hchild : child = .denied := by
          cases child
          · simp [isDenied] at hden
          · simp [isDenied] at hden
          · rfl
        subst hchild
        rw [make_children_cons_denied _ _ _ _ _ _ hskip]
        simp only [List.filter_cons, hskip, Bool.not_false, if_true,
          List.map_cons]
        rw [ihl hWFrest rp d seen]
        rfl
      | false =>
        cases hdir : entryIsDir cfg.followSymlinks child with
        | true =>
          rw [make_children_cons_dir _ _ _ _ _ _ _ hskip hden hdir]
          obtain ⟨cs, cy, hshape⟩ := mn_dir_shape cfg child nm
            (pyJoin rp nm) (d + 1) seen hdir
          simp only [List.filter_cons, hskip, Bool.not_false, if_true,
            List.map_cons, hshape, if_neg hnm]
          rw [ihl hWFrest rp d _]
          have hkey : isDirNoFollow child = true := by
            rw [hf] at hdir
            exact hdir
          simp [jnKey, jnIsDir, jnName, entryKey, hkey]
        | false =>
          rw [make_children_cons_file _ _ _ _ _ _ _ hskip hden hdir]
          simp only [List.filter_cons, hskip, Bool.not_false, if_true,
            List.map_cons]
          rw [ihl hWFrest rp d seen]
          have hkey : isDirNoFollow child = false := by
            rw [hf] at hdir
            exact hdir
          simp [fileJN, jnKey, jnIsDir, jnName, entryKey, hkey]

theorem sorted_fileJN (cfg : Cfg) (node : FSNode) (nm rp : Str) :
    sortedJNb (fileJN cfg node nm rp) = true := by
  simp [fileJN, sortedJNb]

theorem mc_sorted_each (cfg : Cfg) (l : List (Str × FSNode))
    (hWF : ∀ e ∈ l, e.1 ≠ [] ∧ nodeWFb e.2 = true)
    (hIH : ∀ e ∈ l, ∀ (nm rp : Str) (d : Nat) (seen : List Ident),
      nodeWFb e.2 = true →
      sortedJNb (make_node cfg e.2 nm rp d seen).1 = true) :
    ∀ (rp : Str) (d : Nat) (seen : List Ident),
      sortedListB ((make_children cfg l rp d seen).1) = true := by
  induction l with
  | nil =>
    intro rp d seen
    rw [make_children_nil]
    rfl
  | cons e rest ihl =>
    intro rp d seen
    obtain ⟨nm, child⟩ := e
    have hWFrest : ∀ e ∈ rest, e.1 ≠ [] ∧ nodeWFb e.2 = true :=
      fun e he => hWF e (List.mem_cons_of_mem _ he)
    have hIHrest : ∀ e ∈ rest, ∀ (nm rp : Str) (d : Nat)
        (seen : List Ident), nodeWFb e.2 = true →
        sortedJNb (make_node cfg e.2 nm rp d seen).1 = true :=
      fun e he => hIH e (List.mem_cons_of_mem _ he)
    obtain ⟨hnm, hwfc⟩ := hWF (nm, child) (List.mem_cons_self _ _)
    cases hskip : should_skip cfg nm with
    | true =>
      rw [make_children_cons_skip _ _ _ _ _ _ _ hskip]
      exact ihl hWFrest hIHrest rp d seen
    | false =>
      cases hden : isDenied child with
      | true =>
        have hchild : child = .denied := by
          cases child
          · simp [isDenied] at hden
          · simp [isDenied] at hden
          · rfl
        subst hchild
        rw [make_children_cons_denied _ _ _ _ _ _ hskip]
        simp only [sortedListB, sortedJNb, Bool.true_and]
        exact ihl hWFrest hIHrest rp d seen
      | false =>
        cases hdir : entryIsDir cfg.followSymlinks child with
        | true =>
          rw [make_children_cons_dir _ _ _ _ _ _ _ hskip hden hdir]
          simp only [sortedListB, Bool.and_eq_true]
          exact ⟨hIH (nm, child) (List.mem_cons_self _ _) nm
            (pyJoin rp nm) (d + 1) seen hwfc, ihl hWFrest hIHrest rp d _⟩
        | false =>
          rw [make_children_cons_file _ _ _ _ _ _ _ hskip hden hdir]
          simp only [sortedListB, Bool.and_eq_true]
          exact ⟨sorted_fileJN cfg child nm (pyJoin rp nm),
            ihl hWFrest hIHrest rp d seen⟩

theorem mn_sorted (cfg : Cfg) (hf : cfg.followSymlinks = false)
    (node : FSNode) :
    ∀ (nm rp : Str) (d : Nat) (seen : List Ident), nodeWFb node = true →
      sortedJNb (make_node cfg node nm rp d seen).1 = true := by
  induction node using fs_strong_ind with
  | h node IH =>
    cases node with
    | file il s =>
      intro nm rp d seen _
      rw [make_node_notdir _ _ _ _ _ _ (entryIsDir_file _ _ _)]
      exact sorted_fileJN _ _ _ _
    | denied =>
      intro nm rp d seen _
      rw [make_node_notdir _ _ _ _ _ _ (entryIsDir_denied _)]
      exact sorted_fileJN _ _ _ _
    | dir il id sz rd en =>
      intro nm rp d seen hwf
      cases hc : (cfg.followSymlinks || !il) with
      | false =>
        have h := (entryIsDir_dir cfg.followSymlinks il id sz rd en).trans hc
        rw [make_node_notdir _ _ _ _ _ _ h]
        exact sorted_fileJN _ _ _ _
      | true =>
        rw [make_node_dir _ _ _ _ _ _ _ _ _ _ hc]
        have hwfen : entriesWFb en = true := by
          simpa [nodeWFb] using hwf
        have hWFl : ∀ e ∈ iter_entries rd en, e.1 ≠ [] ∧ nodeWFb e.2 = true :=
          fun e he => entriesWFb_mem hwfen (mem_iter_entries he)
        by_cases hdep : cfg.maxDepth ≠ 0 ∧ d > cfg.maxDepth
        · rw [if_pos hdep]
          rfl
        · rw [if_neg hdep]
          by_cases hcy : (cfg.followSymlinks && decide (id ∈ seen)) = true
          · rw [if_pos hcy]
            rfl
          · rw [if_neg hcy]
            simp only [sortedJNb, Bool.and_eq_true]
            constructor
            · -- pairwise ordering of the children by the sort key
              have h2 : List.Pairwise (fun x y => keyLE x y = true)
                  (((iter_entries rd en).filter
                    (fun e => !should_skip cfg e.1)).map entryKey) := by
                rw [List.pairwise_map]
                exact List.Pairwise.filter _ (iter_entries_pairwise rd en)
              have h3 := mc_keys cfg hf (iter_entries rd en)
                (fun e he => (hWFl e he).1) rp d
                (if cfg.followSymlinks then id :: seen else seen)
              rw [← h3, List.pairwise_map] at h2
              rw [jnPairwiseB_iff]
              exact h2
            · exact mc_sorted_each cfg (iter_entries rd en) hWFl
                (fun e he nm rp d seen hwfe =>
                  IH e.2 (mem_iter_entries_sizeOf he il id sz) nm rp d seen
                    hwfe)
                rp d _

theorem jnPairwise_dirsFirst (cs : List JN) (h : jnPairwiseB cs = true) :
    dirsFirstB cs = true := by
  induction cs with
  | nil => rfl
  | cons c rest ih =>
    simp only [jnPairwiseB, Bool.and_eq_true, List.all_eq_true] at h
    obtain ⟨hall, hrest⟩ := h
    simp only [dirsFirstB, Bool.and_eq_true]
    refine ⟨?_, ih hrest⟩
    cases hchd : jnIsDir c with
    | true => simp [hchd]
    | false =>
      simp only [hchd, Bool.false_or, List.all_eq_true]
      intro d hd
      have hk := hall d hd
      cases hd2 : jnIsDir d with
      | true => simp [jnKey, hchd, hd2, keyLE] at hk
      | false => simp [hd2]

/-- The filesystem used for the C4 counterexample: a symlink to a
directory (`zlink`) next to a regular file (`afile`), walked with
symlink-following enabled. -/
def c4FS : FSNode :=
  .dir false (1, 1) none true
    [(str "afile", .file false none),
     (str "zlink", .dir true (7, 7) none true [])]

/-- C4, counterexample to the claim as stated: with symlink-following
enabled, the sort key of md_tree.py line 41 tests directory-ness with
`follow_symlinks=False`, so the symlink-to-directory `zlink` sorts among
the files; it is then walked as a directory (line 101 follows the link)
and emitted as a `dir` node *after* the `file` node `afile` — the
children are not "all `dir` entries before all `file` entries". -/
theorem children_order_cex :
    build_tree_json ⟨0, false, false, [], true⟩ (str "r") c4FS =
      .dir (str "r") (str ".")
        [.file (str "afile") (str "afile") false [] .absent,
         .dir (str "zlink") (str "zlink") [] false] false ∧
    dirsFirstB (jnChildren (build_tree_json ⟨0, false, false, [], true⟩
      (str "r") c4FS)) = false := by
  have h : build_tree_json ⟨0, false, false, [], true⟩ (str "r") c4FS =
      .dir (str "r") (str ".")
        [.file (str "afile") (str "afile") false [] .absent,
         .dir (str "zlink") (str "zlink") [] false] false := by
    rw [build_tree_json]
    simp +decide [c4FS, make_node_dir, make_children_cons_dir,
      make_children_cons_file, make_children_nil, iter_entries, stableSort,
      stableSortAux, insertAfterLe, pyJoin, fileJN, sizeField, getsizeFS,
      isLinkFS, pyExt]
  refine ⟨h, ?_⟩
  rw [h]
  rfl

/-- C4, amended: when symlink-following is disabled, every directory
node of the produced tree has its children ordered by the sort key:
entries that are directories (equivalently here, non-symlink
directories) first, then `file`/`unknown` entries, and within the order
names compare case-insensitively non-decreasing (`sortedJNb`); the
second conjunct bridges the key ordering to the specification's
phrasing, showing it entails that every `dir` child precedes every
`file`/`unknown` child.  With symlink-following enabled the claim fails,
because the sort key deliberately tests directory-ness without following
links: see the counterexample. -/
theorem children_order_spec (cfg : Cfg) (nm : Str) (root : FSNode)
    (hf : cfg.followSymlinks = false) (hWF : nodeWFb root = true) :
    sortedJNb (build_tree_json cfg nm root) = true ∧
    (∀ cs : List JN, jnPairwiseB cs = true → dirsFirstB cs = true) :=
  ⟨mn_sorted cfg hf root nm [] 0 [] hWF,
   fun cs h => jnPairwise_dirsFirst cs h⟩

theorem children_order_spec_witness :
    sortedJNb (build_tree_json ⟨0, false, false, [], false⟩ (str "r")
      (.dir false (1, 1) none true
        [(str "b.txt", .file false none),
         (str "Adir", .dir false (2, 2) none true
           [(str "x", .file false none)]),
         (str "C", .file false none)])) = true ∧
    dirsFirstB [.dir (str "Adir") (str "Adir") [] false,
      .file (str "C") (str "C") false [] .absent] = true :=
  ⟨(children_order_spec ⟨0, false, false, [], false⟩ (str "r")
      (.dir false (1, 1) none true
        [(str "b.txt", .file false none),
         (str "Adir", .dir false (2, 2) none true
           [(str "x", .file false none)]),
         (str "C", .file false none)]) rfl (by decide)).1,
   (children_order_spec ⟨0, false, false, [], false⟩ (str "r")
      (.dir false (1, 1) none true []) rfl (by decide)).2
     [.dir (str "Adir") (str "Adir") [] false,
      .file (str "C") (str "C") false [] .absent] (by decide)⟩
